import Mathlib

/-!
Verification of the placeholder detection / replacement engine of the
LegalDoc filling assistant.  Strings are modelled as `List Char`; the
Python functions of `lib/placeholder_detector.py` and
`lib/document_replacer.py` are embedded as executable Lean functions.
-/

set_option maxRecDepth 8000

namespace LegalDoc

/-- Python `str.lower()` restricted to ASCII (sufficient for the engine's
character classes: every non-ASCII character is later stripped). -/
def pyLower (c : Char) : Char :=
  if 'A' ≤ c ∧ c ≤ 'Z' then Char.ofNat (c.toNat + 32) else c

/-- Python `str.upper()` restricted to ASCII. -/
def pyUpper (c : Char) : Char :=
  if 'a' ≤ c ∧ c ≤ 'z' then Char.ofNat (c.toNat - 32) else c

/-- Python regex `\s` (ASCII whitespace set). -/
def isWsC (c : Char) : Bool :=
  c = ' ' || c = '\t' || c = '\n' || c = '\r' || c = '\x0b' || c = '\x0c'

def isUpperC (c : Char) : Bool := 'A' ≤ c && c ≤ 'Z'

def isLowerC (c : Char) : Bool := 'a' ≤ c && c ≤ 'z'

def isAlphaC (c : Char) : Bool := isUpperC c || isLowerC c

def isDigitC (c : Char) : Bool := '0' ≤ c && c ≤ '9'

def isAlnumC (c : Char) : Bool := isAlphaC c || isDigitC c

/-- The interior character class `[A-Za-z0-9_\s-]` shared by the bracket and
curly patterns. -/
def inClassC (c : Char) : Bool := isAlnumC c || c = '_' || isWsC c || c = '-'

/-- Characters kept by normalization: the class `[a-z0-9_]`. -/
def keepNorm (c : Char) : Bool := isLowerC c || isDigitC c || c = '_'

/-- Python `str.strip()`: trim whitespace from both ends. -/
def pyStrip (l : List Char) : List Char :=
  ((l.dropWhile isWsC).reverse.dropWhile isWsC).reverse

/-- Collapse each run of underscores to one (the re.sub step). -/
def collapseU : List Char → List Char
  | [] => []
  | [c] => [c]
  | a :: b :: rest =>
    if a = '_' && b = '_' then collapseU (b :: rest)
    else a :: collapseU (b :: rest)

/-- Drop a trailing run of underscores (the right half of `strip('_')`). -/
def dropTrailU : List Char → List Char
  | [] => []
  | c :: rest =>
    if dropTrailU rest = [] then (if c = '_' then [] else [c])
    else c :: dropTrailU rest

/-- Python `str.strip('_')`. -/
def stripU (l : List Char) : List Char :=
  dropTrailU (l.dropWhile (fun c => c = '_'))

/-- The function normalize_placeholder_name of lib/placeholder_detector.py:
lowercase, spaces to underscores, strip every character outside
`[a-z0-9_]`, collapse underscore runs, trim underscores at both ends. -/
def normalize (name : List Char) : List Char :=
  stripU (collapseU (List.filter keepNorm
    (List.map (fun c => if c = ' ' then '_' else c) (List.map pyLower name))))

/-! Structural predicates used to prove idempotence of `normalize`. -/

/-- No two adjacent underscores. -/
def noAdjU : List Char → Bool
  | [] => true
  | [_] => true
  | a :: b :: rest => !(a = '_' && b = '_') && noAdjU (b :: rest)

/-- The last character (if any) is not an underscore. -/
def noTrailU : List Char → Bool
  | [] => true
  | [c] => !(c = '_')
  | _ :: rest => noTrailU rest

theorem collapseU_cc (a b : Char) (rest : List Char) :
    collapseU (a :: b :: rest) =
      if a = '_' && b = '_' then collapseU (b :: rest)
      else a :: collapseU (b :: rest) := rfl

theorem dropTrailU_cons (c : Char) (rest : List Char) :
    dropTrailU (c :: rest) =
      if dropTrailU rest = [] then (if c = '_' then [] else [c])
      else c :: dropTrailU rest := rfl

theorem noAdjU_cc (a b : Char) (rest : List Char) :
    noAdjU (a :: b :: rest) = ((!(a = '_' && b = '_')) && noAdjU (b :: rest)) := rfl

theorem noTrailU_cc (a b : Char) (rest : List Char) :
    noTrailU (a :: b :: rest) = noTrailU (b :: rest) := rfl

theorem noTrailU_single (c : Char) : noTrailU [c] = !(c = '_') := rfl

theorem andT {x y : Bool} (h : (x && y) = true) : x = true ∧ y = true := by
  rw [Bool.and_eq_true] at h
  exact h

theorem notT {x : Bool} (h : (!x) = true) : x = false := by
  rw [Bool.not_eq_true'] at h
  exact h

theorem notF {x : Bool} (h : x = false) : (!x) = true := by
  rw [Bool.not_eq_true']
  exact h

theorem neT {x : Bool} (h : x = false) : ¬ (x = true) := by
  rw [h]
  exact Bool.false_ne_true

theorem head?_collapseU : (b : Char) → (r : List Char) →
    (collapseU (b :: r)).head? = some b
  | _, [] => rfl
  | b, c :: r2 => by
    rw [collapseU_cc]
    by_cases h : (decide (b = '_') && decide (c = '_')) = true
    · have hb : b = '_' := of_decide_eq_true (andT h).1
      have hc : c = '_' := of_decide_eq_true (andT h).2
      rw [if_pos h, head?_collapseU c r2, hb, hc]
    · rw [if_neg h, List.head?_cons]

theorem noAdjU_collapseU : (l : List Char) → noAdjU (collapseU l) = true
  | [] => rfl
  | [_] => rfl
  | a :: b :: rest => by
    have ih := noAdjU_collapseU (b :: rest)
    rw [collapseU_cc]
    by_cases h : (decide (a = '_') && decide (b = '_')) = true
    · rw [if_pos h]
      exact ih
    · rw [if_neg h]
      have hab : (decide (a = '_') && decide (b = '_')) = false :=
        Bool.eq_false_iff.mpr h
      cases hcol : collapseU (b :: rest) with
      | nil => rfl
      | cons x xs =>
        have hx : x = b := by
          have hh := head?_collapseU b rest
          rw [hcol, List.head?_cons] at hh
          exact Option.some.inj hh
        subst hx
        rw [hcol] at ih
        rw [noAdjU_cc, hab, ih]
        rfl

theorem collapseU_id : (l : List Char) → noAdjU l = true → collapseU l = l
  | [], _ => rfl
  | [_], _ => rfl
  | a :: b :: rest, h => by
    rw [noAdjU_cc] at h
    have h12 := andT h
    have hab := notT h12.1
    rw [collapseU_cc, if_neg (neT hab), collapseU_id (b :: rest) h12.2]

theorem mem_collapseU : (l : List Char) → (c : Char) → c ∈ collapseU l → c ∈ l
  | [], _, h => h
  | [_], _, h => h
  | a :: b :: rest, c, h => by
    rw [collapseU_cc] at h
    by_cases hab : (decide (a = '_') && decide (b = '_')) = true
    · rw [if_pos hab] at h
      exact List.mem_cons_of_mem a (mem_collapseU (b :: rest) c h)
    · rw [if_neg hab] at h
      rcases List.mem_cons.mp h with h1 | h2
      · exact h1 ▸ List.mem_cons_self a (b :: rest)
      · exact List.mem_cons_of_mem a (mem_collapseU (b :: rest) c h2)

theorem dropTrailU_noTrail : (l : List Char) → noTrailU (dropTrailU l) = true
  | [] => rfl
  | c :: rest => by
    have ih := dropTrailU_noTrail rest
    rw [dropTrailU_cons]
    by_cases hr : dropTrailU rest = []
    · rw [if_pos hr]
      by_cases hc : c = '_'
      · rw [if_pos hc]
        rfl
      · rw [if_neg hc, noTrailU_single]
        exact notF (decide_eq_false hc)
    · rw [if_neg hr]
      cases hdt : dropTrailU rest with
      | nil => exact absurd hdt hr
      | cons x xs =>
        rw [hdt] at ih
        rw [noTrailU_cc]
        exact ih

theorem dropTrailU_id : (l : List Char) → noTrailU l = true → dropTrailU l = l
  | [], _ => rfl
  | [c], h => by
    have hc : ¬ (c = '_') := by
      rw [noTrailU_single] at h
      exact of_decide_eq_false (notT h)
    rw [dropTrailU_cons]
    have h0 : dropTrailU ([] : List Char) = [] := rfl
    rw [h0, if_pos rfl, if_neg hc]
  | a :: b :: rest, h => by
    rw [noTrailU_cc] at h
    have ih := dropTrailU_id (b :: rest) h
    rw [dropTrailU_cons, ih, if_neg (List.cons_ne_nil b rest)]

theorem dropTrailU_mem : (l : List Char) → (c : Char) → c ∈ dropTrailU l → c ∈ l
  | [], _, h => h
  | a :: rest, c, h => by
    rw [dropTrailU_cons] at h
    by_cases hr : dropTrailU rest = []
    · rw [if_pos hr] at h
      by_cases ha : a = '_'
      · rw [if_pos ha] at h
        exact absurd h (List.not_mem_nil c)
      · rw [if_neg ha] at h
        exact (List.mem_singleton.mp h) ▸ List.mem_cons_self a rest
    · rw [if_neg hr] at h
      rcases List.mem_cons.mp h with h1 | h2
      · exact h1 ▸ List.mem_cons_self a rest
      · exact List.mem_cons_of_mem a (dropTrailU_mem rest c h2)

theorem head?_dropTrailU : (l : List Char) → (x : Char) → (xs : List Char) →
    dropTrailU l = x :: xs → l.head? = some x
  | [], x, xs, h => absurd h (List.cons_ne_nil x xs).symm
  | a :: rest, x, xs, h => by
    rw [dropTrailU_cons] at h
    by_cases hr : dropTrailU rest = []
    · rw [if_pos hr] at h
      by_cases ha : a = '_'
      · rw [if_pos ha] at h
        exact absurd h (List.cons_ne_nil x xs).symm
      · rw [if_neg ha] at h
        rw [List.head?_cons, (List.cons.inj h).1]
    · rw [if_neg hr] at h
      rw [List.head?_cons, (List.cons.inj h).1]

theorem dropTrailU_noAdj : (l : List Char) → noAdjU l = true →
    noAdjU (dropTrailU l) = true
  | [], _ => rfl
  | [c], _ => by
    rw [dropTrailU_cons]
    have h0 : dropTrailU ([] : List Char) = [] := rfl
    rw [h0, if_pos rfl]
    by_cases hc : c = '_'
    · rw [if_pos hc]
      rfl
    · rw [if_neg hc]
      rfl
  | a :: b :: rest, h => by
    rw [noAdjU_cc] at h
    have h12 := andT h
    have hab := notT h12.1
    have ih := dropTrailU_noAdj (b :: rest) h12.2
    rw [dropTrailU_cons a (b :: rest)]
    by_cases hr : dropTrailU (b :: rest) = []
    · rw [if_pos hr]
      by_cases ha : a = '_'
      · rw [if_pos ha]
        rfl
      · rw [if_neg ha]
        rfl
    · rw [if_neg hr]
      cases hdt : dropTrailU (b :: rest) with
      | nil => exact absurd hdt hr
      | cons x xs =>
        have hx : x = b := by
          have hh := head?_dropTrailU (b :: rest) x xs hdt
          rw [List.head?_cons] at hh
          exact (Option.some.inj hh).symm
        subst hx
        rw [hdt] at ih
        rw [noAdjU_cc, hab, ih]
        rfl

theorem orT {x y : Bool} (h : (x || y) = true) : x = true ∨ y = true := by
  rw [Bool.or_eq_true] at h
  exact h

theorem wsEnum {c : Char} (h : isWsC c = true) :
    c = ' ' ∨ c = '\t' ∨ c = '\n' ∨ c = '\r' ∨ c = '\x0b' ∨ c = '\x0c' := by
  simp [isWsC] at h
  tauto

theorem pyLower_keep {c : Char} (h : keepNorm c = true) : pyLower c = c := by
  unfold pyLower
  rw [if_neg]
  rintro ⟨hA, hZ⟩
  unfold keepNorm isLowerC isDigitC at h
  rcases orT h with h1 | h2
  · rcases orT h1 with hl | hd
    · have ha : 'a' ≤ c := of_decide_eq_true (andT hl).1
      exact absurd (le_trans ha hZ) (by decide)
    · have h9 : c ≤ '9' := of_decide_eq_true (andT hd).2
      exact absurd (le_trans hA h9) (by decide)
  · have hc : c = '_' := of_decide_eq_true h2
    subst hc
    exact absurd hZ (by decide)

theorem keep_ne_space {c : Char} (h : keepNorm c = true) : ¬ (c = ' ') := by
  intro hc
  rw [hc] at h
  exact absurd h (by decide)

theorem pyLower_ws {c : Char} (h : isWsC c = true) : pyLower c = c := by
  rcases wsEnum h with rfl | rfl | rfl | rfl | rfl | rfl <;> decide

theorem keepNorm_ws_false {c : Char} (h : isWsC c = true) : keepNorm c = false := by
  rcases wsEnum h with rfl | rfl | rfl | rfl | rfl | rfl <;> decide

theorem dropWhile_head_false {p : Char → Bool} {l : List Char} {x : Char}
    {xs : List Char} (h : List.dropWhile p l = x :: xs) : p x = false := by
  induction l with
  | nil => exact absurd h (List.cons_ne_nil x xs).symm
  | cons a r ih =>
    rw [List.dropWhile_cons] at h
    by_cases hp : p a = true
    · rw [if_pos hp] at h
      exact ih h
    · rw [if_neg hp] at h
      rw [← (List.cons.inj h).1]
      exact Bool.eq_false_iff.mpr hp

theorem noAdjU_tail : (a : Char) → (l : List Char) →
    noAdjU (a :: l) = true → noAdjU l = true
  | _, [], _ => rfl
  | a, b :: r, h => by
    rw [noAdjU_cc] at h
    exact (andT h).2

theorem noAdjU_dropWhile (p : Char → Bool) (l : List Char)
    (h : noAdjU l = true) : noAdjU (List.dropWhile p l) = true := by
  induction l with
  | nil => exact h
  | cons a r ih =>
    rw [List.dropWhile_cons]
    by_cases hp : p a = true
    · rw [if_pos hp]
      exact ih (noAdjU_tail a r h)
    · rw [if_neg hp]
      exact h

theorem normalize_mem {s : List Char} {c : Char} (h : c ∈ normalize s) :
    keepNorm c = true := by
  unfold normalize stripU at h
  have h1 := dropTrailU_mem _ c h
  have h2 := (List.dropWhile_sublist _).mem h1
  have h3 := mem_collapseU _ c h2
  exact (List.mem_filter.mp h3).2

theorem normalize_noAdj (s : List Char) : noAdjU (normalize s) = true :=
  dropTrailU_noAdj _ (noAdjU_dropWhile _ _ (noAdjU_collapseU _))

theorem normalize_noTrail (s : List Char) : noTrailU (normalize s) = true :=
  dropTrailU_noTrail _

theorem normalize_head {s : List Char} {x : Char} {xs : List Char}
    (h : normalize s = x :: xs) : ¬ (x = '_') := by
  unfold normalize stripU at h
  have h1 := head?_dropTrailU _ x xs h
  cases hdw : List.dropWhile (fun c => c = '_')
      (collapseU (List.filter keepNorm
        (List.map (fun c => if c = ' ' then '_' else c) (List.map pyLower s)))) with
  | nil =>
    rw [hdw] at h1
    exact absurd h1 (by simp)
  | cons y ys =>
    rw [hdw, List.head?_cons] at h1
    have hy := dropWhile_head_false hdw
    rw [← Option.some.inj h1]
    exact of_decide_eq_false hy

theorem dropWhile_id_of_head {p : Char → Bool} {l : List Char}
    (h : ∀ x xs, l = x :: xs → p x = false) : List.dropWhile p l = l := by
  cases l with
  | nil => rfl
  | cons a r =>
    rw [List.dropWhile_cons, if_neg (neT (h a r rfl))]

/-- C4: `normalize_placeholder_name` is idempotent (it is a total
deterministic Lean function by construction, and applying it twice equals
applying it once on every input string). -/
theorem normalize_idempotent (s : List Char) :
    normalize (normalize s) = normalize s := by
  have hmapl : List.map pyLower (normalize s) = normalize s := by
    rw [List.map_congr_left (fun a ha => pyLower_keep (normalize_mem ha)),
      List.map_id']
  have hmaps : List.map (fun c => if c = ' ' then '_' else c) (normalize s) =
      normalize s := by
    rw [List.map_congr_left
      (fun a ha => if_neg (keep_ne_space (normalize_mem ha))), List.map_id']
  have hfil : List.filter keepNorm (normalize s) = normalize s :=
    List.filter_eq_self.mpr (fun a ha => normalize_mem ha)
  have hcol : collapseU (normalize s) = normalize s :=
    collapseU_id _ (normalize_noAdj s)
  have hdw : List.dropWhile (fun c => c = '_') (normalize s) = normalize s :=
    dropWhile_id_of_head (fun x xs hx =>
      decide_eq_false (normalize_head hx))
  have hdt : dropTrailU (normalize s) = normalize s :=
    dropTrailU_id _ (normalize_noTrail s)
  show stripU (collapseU (List.filter keepNorm
    (List.map (fun c => if c = ' ' then '_' else c)
      (List.map pyLower (normalize s))))) = normalize s
  rw [hmapl, hmaps, hfil, hcol]
  show dropTrailU (List.dropWhile (fun c => c = '_') (normalize s)) = normalize s
  rw [hdw, hdt]

/-- Lowercase-alphanumeric characters, used to state word-joining facts. -/
def lowAl (c : Char) : Bool := isLowerC c || isDigitC c

theorem lowAl_keep {c : Char} (h : lowAl c = true) : keepNorm c = true := by
  unfold lowAl at h
  unfold keepNorm
  rw [Bool.or_eq_true, Bool.or_eq_true]
  rcases orT h with h1 | h2
  · exact Or.inl (Or.inl h1)
  · exact Or.inl (Or.inr h2)

theorem lowAl_ne_u {c : Char} (h : lowAl c = true) : ¬ (c = '_') := by
  intro hc
  rw [hc] at h
  exact absurd h (by decide)

theorem lowAl_ne_space {c : Char} (h : lowAl c = true) : ¬ (c = ' ') := by
  intro hc
  rw [hc] at h
  exact absurd h (by decide)

theorem collapseU_cons_ne {a : Char} (ha : ¬ (a = '_')) :
    (rest : List Char) → collapseU (a :: rest) = a :: collapseU rest
  | [] => rfl
  | b :: r => by
    rw [collapseU_cc, if_neg]
    intro hand
    exact absurd (of_decide_eq_true (andT hand).1) ha

theorem collapseU_append_nou {l : List Char} (m : List Char)
    (h : ∀ c ∈ l, ¬ (c = '_')) : collapseU (l ++ m) = l ++ collapseU m := by
  induction l with
  | nil => rfl
  | cons a r ih =>
    rw [List.cons_append,
      collapseU_cons_ne (h a (List.mem_cons_self a r)) (r ++ m),
      ih (fun c hc => h c (List.mem_cons_of_mem a hc)), List.cons_append]

theorem noAdjU_of_nou : (l : List Char) → (∀ c ∈ l, ¬ (c = '_')) →
    noAdjU l = true
  | [], _ => rfl
  | [_], _ => rfl
  | a :: b :: rest, h => by
    rw [noAdjU_cc, Bool.and_eq_true]
    refine ⟨?_, noAdjU_of_nou (b :: rest)
      (fun c hc => h c (List.mem_cons_of_mem a hc))⟩
    rw [Bool.not_eq_true']
    rw [decide_eq_false (h a (List.mem_cons_self a (b :: rest)))]
    rfl

theorem collapseU_repl : (n : Nat) → (w2 : List Char) → 1 ≤ n →
    (∀ c ∈ w2, ¬ (c = '_')) →
    collapseU (List.replicate n '_' ++ w2) = '_' :: w2
  | 0, _, h1, _ => absurd h1 (by decide)
  | 1, w2, _, h2 => by
    show collapseU ('_' :: w2) = '_' :: w2
    cases w2 with
    | nil => rfl
    | cons b r =>
      rw [collapseU_cc, if_neg, collapseU_id (b :: r) (noAdjU_of_nou (b :: r) h2)]
      intro hand
      exact absurd (of_decide_eq_true (andT hand).2)
        (h2 b (List.mem_cons_self b r))
  | (k + 2), w2, _, h2 => by
    have ih := collapseU_repl (k + 1) w2 (by omega) h2
    show collapseU ('_' :: ('_' :: (List.replicate k '_' ++ w2))) = '_' :: w2
    rw [collapseU_cc, if_pos (by decide)]
    exact ih

theorem noTrailU_cons_ne (a : Char) {rest : List Char} (h : rest ≠ []) :
    noTrailU (a :: rest) = noTrailU rest := by
  cases rest with
  | nil => exact absurd rfl h
  | cons b r => rw [noTrailU_cc]

theorem noTrailU_append (l : List Char) {w2 : List Char} (h : w2 ≠ []) :
    noTrailU (l ++ w2) = noTrailU w2 := by
  induction l with
  | nil => rfl
  | cons a r ih =>
    rw [List.cons_append, noTrailU_cons_ne a (by
      intro hc
      exact h (List.append_eq_nil.mp hc).2), ih]

theorem noTrailU_of_nou : (l : List Char) → (∀ c ∈ l, ¬ (c = '_')) →
    noTrailU l = true
  | [], _ => rfl
  | [c], h => by
    rw [noTrailU_single]
    exact notF (decide_eq_false (h c (List.mem_singleton_self c)))
  | a :: b :: rest, h => by
    rw [noTrailU_cc]
    exact noTrailU_of_nou (b :: rest) (fun c hc => h c (List.mem_cons_of_mem a hc))

theorem filter_map_ws (run : List Char) (h : ∀ c ∈ run, isWsC c = true) :
    List.filter keepNorm
      (List.map (fun c => if c = ' ' then '_' else c) run) =
    List.replicate (List.filter (fun c => c = ' ') run).length '_' := by
  induction run with
  | nil => rfl
  | cons c r ih =>
    have hc := h c (List.mem_cons_self c r)
    have ihr := ih (fun d hd => h d (List.mem_cons_of_mem c hd))
    rw [List.map_cons, List.filter_cons, List.filter_cons]
    by_cases hsp : c = ' '
    · rw [if_pos hsp]
      rw [show (decide (c = ' ')) = true from decide_eq_true hsp]
      rw [show (keepNorm '_') = true from rfl]
      rw [ihr]
      rfl
    · rw [if_neg hsp]
      rw [show (decide (c = ' ')) = false from decide_eq_false hsp]
      rw [show keepNorm c = false from keepNorm_ws_false hc]
      rw [ihr]
      rw [if_neg (by decide), if_neg (by decide)]

theorem map_pyLower_wordsep {w1 w2 run : List Char}
    (ha1 : ∀ c ∈ w1, lowAl c = true) (ha2 : ∀ c ∈ w2, lowAl c = true)
    (hr : ∀ c ∈ run, isWsC c = true) :
    List.map pyLower (w1 ++ run ++ w2) = w1 ++ run ++ w2 := by
  rw [List.map_congr_left (fun a ha => ?_), List.map_id']
  rcases List.mem_append.mp ha with h1 | h2
  · rcases List.mem_append.mp h1 with h3 | h4
    · exact pyLower_keep (lowAl_keep (ha1 a h3))
    · exact pyLower_ws (hr a h4)
  · exact pyLower_keep (lowAl_keep (ha2 a h2))


theorem map_spc_word {w : List Char} (ha : ∀ c ∈ w, lowAl c = true) :
    List.map (fun c => if c = ' ' then '_' else c) w = w := by
  rw [List.map_congr_left (fun a haa => if_neg (lowAl_ne_space (ha a haa))),
    List.map_id']

theorem filter_keep_word {w : List Char} (ha : ∀ c ∈ w, lowAl c = true) :
    List.filter keepNorm w = w :=
  List.filter_eq_self.mpr (fun a haa => lowAl_keep (ha a haa))

/-- C5 (amended): `normalize` lowercases, replaces each space character by
an underscore, strips characters outside `[a-z0-9_]` (so tabs and newlines
are removed rather than replaced), collapses underscore runs and trims
underscores.  Hence two lowercase-alphanumeric words separated by a
whitespace run are joined by exactly one underscore when the run contains
at least one space, and are concatenated directly when the run consists
only of non-space whitespace such as tabs or newlines. -/
theorem normalize_word_separator (w1 w2 run : List Char)
    (hw1 : w1 ≠ []) (hw2 : w2 ≠ [])
    (ha1 : ∀ c ∈ w1, lowAl c = true) (ha2 : ∀ c ∈ w2, lowAl c = true)
    (hr : ∀ c ∈ run, isWsC c = true) :
    normalize (w1 ++ run ++ w2) =
      w1 ++ (if ' ' ∈ run then '_' :: w2 else w2) := by
  obtain ⟨a, r, rfl⟩ := List.exists_cons_of_ne_nil hw1
  have hfil : List.filter keepNorm
      (List.map (fun c => if c = ' ' then '_' else c)
        (List.map pyLower ((a :: r) ++ run ++ w2))) =
      (a :: r) ++ (List.replicate
        (List.filter (fun c => c = ' ') run).length '_' ++ w2) := by
    rw [map_pyLower_wordsep ha1 ha2 hr, List.map_append, List.map_append,
      map_spc_word ha1, map_spc_word ha2, List.filter_append,
      List.filter_append, filter_keep_word ha1, filter_keep_word ha2,
      filter_map_ws run hr, List.append_assoc]
  have hnou1 : ∀ c ∈ (a :: r), ¬ (c = '_') := fun c hc => lowAl_ne_u (ha1 c hc)
  have hnou2 : ∀ c ∈ w2, ¬ (c = '_') := fun c hc => lowAl_ne_u (ha2 c hc)
  have hstep : collapseU ((a :: r) ++ (List.replicate
      (List.filter (fun c => c = ' ') run).length '_' ++ w2)) =
      (a :: r) ++ (if ' ' ∈ run then '_' :: w2 else w2) := by
    rw [collapseU_append_nou _ hnou1]
    by_cases hmem : ' ' ∈ run
    · have hlen : 1 ≤ (List.filter (fun c => c = ' ') run).length := by
        have hmf : ' ' ∈ List.filter (fun c => c = ' ') run :=
          List.mem_filter.mpr ⟨hmem, by decide⟩
        exact List.length_pos.mpr (List.ne_nil_of_mem hmf)
      rw [collapseU_repl _ w2 hlen hnou2, if_pos hmem]
    · have hnil : List.filter (fun c => c = ' ') run = [] :=
        List.filter_eq_nil_iff.mpr (fun c hc hcs => hmem (of_decide_eq_true hcs ▸ hc))
      rw [hnil, List.length_nil, List.replicate_zero, List.nil_append,
        collapseU_id w2 (noAdjU_of_nou w2 hnou2), if_neg hmem]
  have hsep_ne : (if ' ' ∈ run then '_' :: w2 else w2) ≠ [] := by
    by_cases hmem : ' ' ∈ run
    · rw [if_pos hmem]
      exact List.cons_ne_nil _ _
    · rw [if_neg hmem]
      exact hw2
  have htrail : noTrailU ((a :: r) ++ (if ' ' ∈ run then '_' :: w2 else w2)) = true := by
    rw [noTrailU_append _ hsep_ne]
    by_cases hmem : ' ' ∈ run
    · rw [if_pos hmem, noTrailU_cons_ne '_' hw2]
      exact noTrailU_of_nou w2 hnou2
    · rw [if_neg hmem]
      exact noTrailU_of_nou w2 hnou2
  show stripU (collapseU (List.filter keepNorm
    (List.map (fun c => if c = ' ' then '_' else c)
      (List.map pyLower ((a :: r) ++ run ++ w2))))) = _
  rw [hfil, hstep]
  show dropTrailU (List.dropWhile (fun c => c = '_')
    ((a :: r) ++ (if ' ' ∈ run then '_' :: w2 else w2))) = _
  rw [List.cons_append, List.dropWhile_cons,
    if_neg (neT (decide_eq_false (lowAl_ne_u (ha1 a (List.mem_cons_self a r))))),
    ← List.cons_append, dropTrailU_id _ htrail]

/-- C5 counterexample: the code replaces only space characters by
underscores; a tab separator is stripped, so normalize of the string made
of the characters a, tab, b is the two-character string ab, not a_b as the
claim states. -/
theorem normalize_tab_counterexample :
    normalize ['a', '\t', 'b'] = ['a', 'b'] ∧
    ¬ (normalize ['a', '\t', 'b'] = ['a', '_', 'b']) :=
  ⟨by decide, by decide⟩

/-- Witness for C5 amended: concrete words joined by a single space and by
a single tab. -/
theorem normalize_word_separator_witness :
    normalize (['a'] ++ [' '] ++ ['b']) =
      ['a'] ++ (if ' ' ∈ [' '] then '_' :: ['b'] else ['b']) :=
  normalize_word_separator ['a'] ['b'] [' '] (by decide) (by decide)
    (by decide) (by decide) (by decide)

/-! Pattern matchers.  Each embeds one regex of the detector, with Python
semantics: leftmost match, greedy `\s*`, lazy `+?` interior groups, and
per-pattern non-overlapping scanning (`re.finditer`). -/

/-- Count of leading whitespace characters plus the remaining suffix. -/
def spanWs : List Char → Nat × List Char
  | [] => (0, [])
  | c :: r =>
    if isWsC c then
      let p := spanWs r
      (p.1 + 1, p.2)
    else (0, c :: r)

/-- Count of leading underscores plus the remaining suffix. -/
def spanUnd : List Char → Nat × List Char
  | [] => (0, [])
  | c :: r =>
    if c = '_' then
      let p := spanUnd r
      (p.1 + 1, p.2)
    else (0, c :: r)

/-- Regex `\$\s*\[\s*_{3,}\s*\]` matched at the head of the list; returns
the matched length. -/
def matchDollarAt (l : List Char) : Option Nat :=
  match l with
  | '$' :: r1 =>
    let p1 := spanWs r1
    (match p1.2 with
     | '[' :: r3 =>
       let p2 := spanWs r3
       let pu := spanUnd p2.2
       if pu.1 < 3 then none
       else
         let p3 := spanWs pu.2
         (match p3.2 with
          | ']' :: _ => some (1 + p1.1 + 1 + p2.1 + pu.1 + p3.1 + 1)
          | _ => none)
     | _ => none)
  | _ => none

/-- Close test `\s*\]`: whitespace then a closing square bracket; returns
the consumed length. -/
def closeSq (l : List Char) : Option Nat :=
  let p := spanWs l
  match p.2 with
  | ']' :: _ => some (p.1 + 1)
  | _ => none

/-- Close test `\s*\}`: whitespace then one closing curly brace. -/
def closeCur1 (l : List Char) : Option Nat :=
  let p := spanWs l
  match p.2 with
  | '}' :: _ => some (p.1 + 1)
  | _ => none

/-- Close test `\s*\}\}`: whitespace then two closing curly braces. -/
def closeCur2 (l : List Char) : Option Nat :=
  let p := spanWs l
  match p.2 with
  | '}' :: '}' :: _ => some (p.1 + 2)
  | _ => none

/-- Lazy interior group `[A-Za-z0-9_\s-]+?`: after at least one consumed
class character (already in `acc`, reversed), try the close test before
consuming each further character.  Returns the reversed capture and the
length consumed by the close test. -/
def lazyGrp (close : List Char → Option Nat) :
    List Char → List Char → Option (List Char × Nat)
  | acc, [] =>
    (match close [] with
     | some n => some (acc, n)
     | none => none)
  | acc, c :: r =>
    (match close (c :: r) with
     | some n => some (acc, n)
     | none => if inClassC c then lazyGrp close (c :: acc) r else none)

/-- Regex `\[\s*([A-Za-z][A-Za-z0-9_\s-]+?)\s*\]` at the head of the
list; returns the matched length and capture group 1. -/
def matchSquareAt (l : List Char) : Option (Nat × List Char) :=
  match l with
  | '[' :: r1 =>
    let p1 := spanWs r1
    (match p1.2 with
     | c0 :: r3 =>
       if isAlphaC c0 then
         (match r3 with
          | c1 :: r4 =>
            if inClassC c1 then
              (match lazyGrp closeSq [c1, c0] r4 with
               | some (accRev, tailLen) =>
                 some (1 + p1.1 + accRev.length + tailLen, accRev.reverse)
               | none => none)
            else none
          | [] => none)
       else none
     | [] => none)
  | _ => none

/-- One backtracking attempt for the curly interior: consume `a` leading
whitespace characters as `\s*`, then a lazy class group of at least one
character, then the close test. -/
def attemptGrp (close : List Char → Option Nat) (a : Nat) (l : List Char) :
    Option (Nat × List Char) :=
  match l.drop a with
  | c :: r =>
    if inClassC c then
      (match lazyGrp close [c] r with
       | some (accRev, tailLen) =>
         some (a + accRev.length + tailLen, accRev.reverse)
       | none => none)
    else none
  | [] => none

/-- Greedy `\s*` with backtracking: try consuming `a` whitespace
characters, largest first, as Python does. -/
def tryCurlyA (close : List Char → Option Nat) :
    Nat → List Char → Option (Nat × List Char)
  | 0, l => attemptGrp close 0 l
  | a + 1, l =>
    (match attemptGrp close (a + 1) l with
     | some x => some x
     | none => tryCurlyA close a l)

/-- Regex `\{\{\s*([A-Za-z0-9_\s-]+?)\s*\}\}` at the head of the list. -/
def matchDoubleAt (l : List Char) : Option (Nat × List Char) :=
  match l with
  | '{' :: '{' :: r =>
    (match tryCurlyA closeCur2 (spanWs r).1 r with
     | some (innerLen, capt) => some (2 + innerLen, capt)
     | none => none)
  | _ => none

/-- Regex `\{\s*([A-Za-z0-9_\s-]+?)\s*\}` at the head of the list. -/
def matchSingleAt (l : List Char) : Option (Nat × List Char) :=
  match l with
  | '{' :: r =>
    (match tryCurlyA closeCur1 (spanWs r).1 r with
     | some (innerLen, capt) => some (1 + innerLen, capt)
     | none => none)
  | _ => none

/-- Regex `_{3,}` at the head of the list (greedy, whole run). -/
def matchUnderscoreAt (l : List Char) : Option Nat :=
  if 3 ≤ (spanUnd l).1 then some (spanUnd l).1 else none

/-- Uniform matcher type: matched length plus optional capture group. -/
def dollarAt (l : List Char) : Option (Nat × Option (List Char)) :=
  (matchDollarAt l).map (fun n => (n, none))

def squareAt (l : List Char) : Option (Nat × Option (List Char)) :=
  (matchSquareAt l).map (fun p => (p.1, some p.2))

def doubleAt (l : List Char) : Option (Nat × Option (List Char)) :=
  (matchDoubleAt l).map (fun p => (p.1, some p.2))

def singleAt (l : List Char) : Option (Nat × Option (List Char)) :=
  (matchSingleAt l).map (fun p => (p.1, some p.2))

def undAt (l : List Char) : Option (Nat × Option (List Char)) :=
  (matchUnderscoreAt l).map (fun n => (n, none))

/-- Python re.finditer: scan left to right; on a match, emit
`(start, stop, capture)` and resume at the match end. -/
def finditerAux (matchAt : List Char → Option (Nat × Option (List Char))) :
    Nat → List Char → Nat → List (Nat × Nat × Option (List Char))
  | 0, _, _ => []
  | _ + 1, [], _ => []
  | fuel + 1, c :: r, pos =>
    (match matchAt (c :: r) with
     | some (len, cap) =>
       (pos, pos + len, cap) ::
         finditerAux matchAt fuel ((c :: r).drop len) (pos + len)
     | none => finditerAux matchAt fuel r (pos + 1))

def finditer (matchAt : List Char → Option (Nat × Option (List Char)))
    (l : List Char) : List (Nat × Nat × Option (List Char)) :=
  finditerAux matchAt l.length l 0

inductive PatternKind where
  | dollar_underscore
  | square_bracket
  | double_curly
  | single_curly
  | underscore
  | signature_label
deriving DecidableEq, Repr

/-- The explicit priority map of `detect_placeholders_with_context`. -/
def priorityOf : PatternKind → Nat
  | .signature_label => 6
  | .dollar_underscore => 5
  | .square_bracket => 4
  | .double_curly => 3
  | .single_curly => 2
  | .underscore => 1

/-- One collected candidate dictionary of `collect_candidates`. -/
structure RawMatch where
  start : Nat
  stop : Nat
  length : Nat
  kind : PatternKind
  priority : Nat
  original : List Char
  captured : Option (List Char)
deriving DecidableEq, Repr

def mkMatches (t : List Char) (kind : PatternKind)
    (ms : List (Nat × Nat × Option (List Char))) : List RawMatch :=
  ms.map (fun m =>
    { start := m.1, stop := m.2.1, length := m.2.1 - m.1, kind := kind,
      priority := priorityOf kind,
      original := (t.drop m.1).take (m.2.1 - m.1), captured := m.2.2 })

/-- Case-insensitive literal match: on success returns the matched text
(as it appears) and the rest. -/
def matchCI : List Char → List Char → Option (List Char × List Char)
  | [], l => some ([], l)
  | _ :: _, [] => none
  | p :: ps, c :: cs =>
    if pyLower c = pyLower p then
      (matchCI ps cs).map (fun x => (c :: x.1, x.2))
    else none

/-- The leader class `[ \t\._\-—]` of the signature-label regex. -/
def leaderC (c : Char) : Bool :=
  c = ' ' || c = '\t' || c = '.' || c = '_' || c = '-' || c = '—'

/-- Python `$`: end of string, or just before one final newline. -/
def tailDollar (l : List Char) : Bool :=
  l = [] || l = ['\n']

/-- Suffix `\s*:?\s*([ \t\._\-—]*)$` of the signature-label regex. -/
def sigSfxOk (l : List Char) : Bool :=
  let r1 := (spanWs l).2
  let r2 := match r1 with
    | ':' :: r => r
    | _ => r1
  let r3 := (spanWs r2).2
  tailDollar (r3.dropWhile leaderC)

/-- The label alternation of the signature regex, in source order:
`Address|Email|E-mail|Phone|Name|Title` (note: `By` is absent). -/
def sigLabels : List (List Char) :=
  [("Address".toList), ("Email".toList), ("E-mail".toList),
   ("Phone".toList), ("Name".toList), ("Title".toList)]

def sigTry : List (List Char) → List Char → Option (List Char)
  | [], _ => none
  | lab :: rest, l =>
    (match matchCI lab l with
     | some (orig, r) => if sigSfxOk r then some orig else sigTry rest l
     | none => sigTry rest l)

/-- The signature-line heuristic of `collect_candidates`: the anchored
case-insensitive regex `^\s*(Address|Email|E-mail|Phone|Name|Title)\s*:?\s*([ \t\._\-—]*)$`
(whose trailing group can never contain an alphanumeric character, so the
remainder check in the source always passes).  The emitted match spans the
whole paragraph. -/
def sigCandidate (t : List Char) : Option RawMatch :=
  match sigTry sigLabels (spanWs t).2 with
  | some orig =>
    some { start := 0, stop := t.length, length := t.length,
           kind := .signature_label, priority := priorityOf .signature_label,
           original := pyStrip t, captured := some orig }
  | none => none

/-- The function collect_candidates: all five regex patterns in source order, then
the signature-line heuristic. -/
def collectCandidates (t : List Char) : List RawMatch :=
  if t = [] then []
  else
    mkMatches t .dollar_underscore (finditer dollarAt t) ++
    mkMatches t .square_bracket (finditer squareAt t) ++
    mkMatches t .double_curly (finditer doubleAt t) ++
    mkMatches t .single_curly (finditer singleAt t) ++
    mkMatches t .underscore (finditer undAt t) ++
    (match sigCandidate t with
     | some m => [m]
     | none => [])

/-- The sort key `(start, -priority, -length)` of `arbitrate`: true when
`a` sorts no later than `b`. -/
def keyLE (a b : RawMatch) : Bool :=
  a.start < b.start ||
    (a.start = b.start &&
      (b.priority < a.priority ||
        (b.priority = a.priority && b.length ≤ a.length)))

/-- Stable insertion: `x` goes after every element that sorts no later
than it, as Python's stable `list.sort`. -/
def insSort (x : RawMatch) : List RawMatch → List RawMatch
  | [] => [x]
  | y :: ys => if keyLE y x then y :: insSort x ys else x :: y :: ys

def sortMatches (l : List RawMatch) : List RawMatch :=
  l.foldl (fun acc x => insSort x acc) []

/-- The overlap test of `arbitrate`: `not (e <= s2 or s >= e2)`. -/
def spanOverlapB (s e s2 e2 : Nat) : Bool := !(decide (e ≤ s2) || decide (s ≥ e2))

/-- The greedy left-to-right sweep of `arbitrate`. -/
def sweep : List RawMatch → List (Nat × Nat) → List RawMatch
  | [], _ => []
  | c :: rest, taken =>
    if taken.any (fun p => spanOverlapB c.start c.stop p.1 p.2) then
      sweep rest taken
    else c :: sweep rest ((c.start, c.stop) :: taken)

/-- The function arbitrate of detect_placeholders_with_context: stable sort by
`(start, -priority, -length)`, then keep each match whose span does not
overlap an already kept span. -/
def arbitrate (l : List RawMatch) : List RawMatch := sweep (sortMatches l) []

theorem sweep_cons (c : RawMatch) (rest : List RawMatch)
    (taken : List (Nat × Nat)) :
    sweep (c :: rest) taken =
      if taken.any (fun p => spanOverlapB c.start c.stop p.1 p.2) then
        sweep rest taken
      else c :: sweep rest ((c.start, c.stop) :: taken) := rfl

theorem anyF {α : Type} {f : α → Bool} {l : List α} (h : l.any f = false) :
    ∀ x ∈ l, f x = false := by
  intro x hx
  rw [List.any_eq_false] at h
  exact Bool.eq_false_iff.mpr (h x hx)

theorem sweep_keeps_compatible :
    ∀ (l : List RawMatch) (taken : List (Nat × Nat)) (m : RawMatch),
      m ∈ sweep l taken →
      ∀ p ∈ taken, spanOverlapB m.start m.stop p.1 p.2 = false
  | [], _, m, hm => absurd hm (List.not_mem_nil m)
  | c :: rest, taken, m, hm => by
    rw [sweep_cons] at hm
    by_cases hov : taken.any (fun p => spanOverlapB c.start c.stop p.1 p.2) = true
    · rw [if_pos hov] at hm
      exact sweep_keeps_compatible rest taken m hm
    · rw [if_neg hov] at hm
      rcases List.mem_cons.mp hm with h1 | h2
      · subst h1
        exact anyF (Bool.eq_false_iff.mpr hov)
      · intro p hp
        exact sweep_keeps_compatible rest ((c.start, c.stop) :: taken) m h2 p
          (List.mem_cons_of_mem _ hp)

theorem sweep_pairwise :
    ∀ (l : List RawMatch) (taken : List (Nat × Nat)),
      List.Pairwise (fun a b => ¬ (a.start < b.stop ∧ b.start < a.stop))
        (sweep l taken)
  | [], _ => List.Pairwise.nil
  | c :: rest, taken => by
    rw [sweep_cons]
    by_cases hov : taken.any (fun p => spanOverlapB c.start c.stop p.1 p.2) = true
    · rw [if_pos hov]
      exact sweep_pairwise rest taken
    · rw [if_neg hov]
      refine List.Pairwise.cons ?_ (sweep_pairwise rest _)
      intro b hb
      have hno := sweep_keeps_compatible rest ((c.start, c.stop) :: taken) b hb
        (c.start, c.stop) (List.mem_cons_self _ _)
      unfold spanOverlapB at hno
      have hx : (decide (b.stop ≤ c.start) || decide (b.start ≥ c.stop)) = true := by
        cases hd : (decide (b.stop ≤ c.start) || decide (b.start ≥ c.stop)) with
        | true => rfl
        | false =>
          rw [hd] at hno
          exact absurd hno (by decide)
      rintro ⟨h1, h2⟩
      rcases orT hx with hc1 | hc2
      · have := of_decide_eq_true hc1
        omega
      · have := of_decide_eq_true hc2
        omega

/-- C2: for any list of raw matches collected from one paragraph, the
output of `arbitrate` contains no two overlapping spans: no pair
`(s1,e1)`, `(s2,e2)` among the kept matches has `s1 < e2` and `s2 < e1`. -/
theorem arbitrate_non_overlapping (l : List RawMatch) :
    List.Pairwise (fun a b => ¬ (a.start < b.stop ∧ b.start < a.stop))
      (arbitrate l) :=
  sweep_pairwise (sortMatches l) []

def exDblText : List Char := ['{', '{', 'X', '}', '}']

/-- C3: on the paragraph whose text is the five characters of a
double-curly token around X, collection plus arbitration keeps exactly one
match; it is the double_curly match spanning the whole token — the
single_curly match of the inner braces is dropped. -/
theorem arbitrate_double_curly_example :
    arbitrate (collectCandidates exDblText) =
      [{ start := 0, stop := 5, length := 5, kind := .double_curly,
         priority := 3, original := exDblText, captured := some ['X'] }] := by
  decide

/-- Maximal run of interior-class characters, capped at `lim`. -/
def clsRun : List Char → Nat → Nat
  | _, 0 => 0
  | [], _ => 0
  | c :: r, lim + 1 => if inClassC c then 1 + clsRun r lim else 0

/-- Maximal run of interior-class characters, uncapped. -/
def clsRunAll : List Char → Nat
  | [] => 0
  | c :: r => if inClassC c then 1 + clsRunAll r else 0

/-- Suffix `\s*:\s*$` (colon required).  Since `\s*` is greedy and also
consumes a final newline, success means the remainder after the colon is
all whitespace. -/
def sfxColonReq (l : List Char) : Bool :=
  match (spanWs l).2 with
  | ':' :: r2 => (spanWs r2).2 = []
  | _ => false

/-- Suffix `\s*:?\s*$` (colon optional). -/
def sfxColonOpt (l : List Char) : Bool :=
  match (spanWs l).2 with
  | ':' :: r2 => (spanWs r2).2 = []
  | r1 => r1 = []

/-- Greedy `{lo..}`-group backtracking: try the largest repetition count
first, go down to `lo + 1` extra characters; `low` selects the suffix
test. -/
def tryKdesc (sfx : List Char → Bool) (lo : Nat) (c : Char) (r : List Char) :
    Nat → Option (List Char)
  | 0 => none
  | k + 1 =>
    if lo ≤ k + 1 && sfx (r.drop (k + 1)) then some (c :: r.take (k + 1))
    else tryKdesc sfx lo c r k

/-- Leftmost `re.search` of `([A-Za-z][A-Za-z0-9_\s-]{1,50})\s*:\s*$`
(the underscore-label inference). -/
def labelSearchColon : List Char → Option (List Char)
  | [] => none
  | c :: r =>
    (match (if isAlphaC c then tryKdesc sfxColonReq 1 c r (clsRun r 50)
            else none) with
     | some g => some g
     | none => labelSearchColon r)

/-- Leftmost `re.search` of `([A-Za-z][A-Za-z0-9_\s-]{2,50})\s*:?\s*$`
(the dollar-underscore before-label inference). -/
def labelSearchDollar : List Char → Option (List Char)
  | [] => none
  | c :: r =>
    (match (if isAlphaC c then tryKdesc sfxColonOpt 2 c r (clsRun r 50)
            else none) with
     | some g => some g
     | none => labelSearchDollar r)

/-- Quote class `['\"“”]` of the detector's after-label regex. -/
def quoteD (c : Char) : Bool :=
  c = Char.ofNat 39 || c = '"' || c = '“' || c = '”'

/-- Quote class `['\" ""]` of the replacer's after-label regex (its
source literally includes a space character). -/
def quoteR (c : Char) : Bool := c = Char.ofNat 39 || c = '"' || c = ' '

/-- Head test for whitespace followed by a closing parenthesis. -/
def wsParen (l : List Char) : Bool :=
  match (spanWs l).2 with
  | ')' :: _ => true
  | _ => false

/-- Optional closing quote then `\s*\)`, trying the quote first as the
greedy `?` does. -/
def closeQws (q : Char → Bool) (l : List Char) : Bool :=
  match l with
  | c :: r => if q c then (wsParen r || wsParen (c :: r)) else wsParen (c :: r)
  | [] => false

/-- Greedy unbounded group `([A-Za-z][A-Za-z0-9_\s-]{2,})` followed by an
optional quote and `\s*\)`. -/
def grpDesc (q : Char → Bool) (c0 : Char) (r : List Char) :
    Nat → Option (List Char)
  | 0 => none
  | k + 1 =>
    if 2 ≤ k + 1 && closeQws q (r.drop (k + 1)) then some (c0 :: r.take (k + 1))
    else grpDesc q c0 r k

def tryGroupQ (q : Char → Bool) (l : List Char) : Option (List Char) :=
  match l with
  | c0 :: r => if isAlphaC c0 then grpDesc q c0 r (clsRunAll r) else none
  | [] => none

/-- The after-label regex
`\(\s*the\s+[quote]?([A-Za-z][A-Za-z0-9_\s-]{2,})[quote]?\s*\)`
(case-insensitive) matched at the head of the list. -/
def afterTheAt (q : Char → Bool) (l : List Char) : Option (List Char) :=
  match l with
  | '(' :: r1 =>
    (match (spanWs r1).2 with
     | t1 :: h1 :: e1 :: r3 =>
       if pyLower t1 = 't' && pyLower h1 = 'h' && pyLower e1 = 'e' then
         (let pw := spanWs r3
          if pw.1 = 0 then none
          else
            match pw.2 with
            | c :: r5 =>
              if q c then
                (match tryGroupQ q r5 with
                 | some g => some g
                 | none => tryGroupQ q (c :: r5))
              else tryGroupQ q (c :: r5)
            | [] => none)
       else none
     | _ => none)
  | _ => none

/-- Leftmost `re.search` of the after-label regex. -/
def searchAfterThe (q : Char → Bool) : List Char → Option (List Char)
  | [] => none
  | c :: r =>
    (match afterTheAt q (c :: r) with
     | some g => some g
     | none => searchAfterThe q r)

/-- True when `l` starts with `p`. -/
def leadsWith : List Char → List Char → Bool
  | _, [] => true
  | [], _ :: _ => false
  | c :: r, p :: ps => c = p && leadsWith r ps

def stopwords : List (List Char) :=
  [("of".toList), ("the".toList), ("a".toList), ("an".toList),
   ("is".toList), ("at".toList), ("on".toList), ("by".toList),
   ("for".toList), ("in".toList)]

def amountBase : List Char := ['a', 'm', 'o', 'u', 'n', 't', '_']

def fieldBase : List Char := ['f', 'i', 'e', 'l', 'd', '_']

def natDigits (n : Nat) : List Char := Nat.toDigits 10 n

/-- Locator id built as locator-s<start>-e<stop>. -/
def locId (loc : List Char) (s e : Nat) : List Char :=
  loc ++ '-' :: 's' :: natDigits s ++ '-' :: 'e' :: natDigits e

/-- One emitted candidate of `detect_placeholders_with_context` (the
sentence-context field is not modelled; no claim refers to it).  The
`start`/`stop` offsets are those encoded in the instance id. -/
structure Candidate where
  id : List Char
  normalized : List Char
  original : List Char
  kind : PatternKind
  start : Nat
  stop : Nat
deriving DecidableEq, Repr

/-- The mutable state threaded through detection: the document-wide
underscore counter, the running placeholders dict (key, originals), and
the emitted candidate list. -/
structure DetState where
  counter : Nat
  ph : List (List Char × List (List Char))
  cands : List Candidate
deriving DecidableEq, Repr

def initDetState : DetState := { counter := 0, ph := [], cands := [] }

/-- Python placeholders.setdefault followed by appending `orig` when it
is not already present. -/
def phAdd : List (List Char × List (List Char)) → List Char → List Char →
    List (List Char × List (List Char))
  | [], k, orig => [(k, [orig])]
  | (k1, os) :: r, k, orig =>
    if k1 = k then (k1, if orig ∈ os then os else os ++ [orig]) :: r
    else (k1, os) :: phAdd r k orig

/-- Count of keys that start with the amount base, as the source counts
them over the running placeholder keys. -/
def countAmount (keys : List (List Char)) : Nat :=
  (keys.filter (fun k => leadsWith k amountBase)).length

/-- Key resolution of `process_kept` for one kept match; returns the
normalized key and the updated underscore counter. -/
def deriveKey (t : List Char) (m : RawMatch) (counter : Nat)
    (phKeys : List (List Char)) : List Char × Nat :=
  match m.kind with
  | .underscore =>
    (match labelSearchColon (pyStrip (t.take m.start)) with
     | some g => (normalize g, counter)
     | none => (fieldBase ++ natDigits (counter + 1), counter + 1))
  | .dollar_underscore =>
    (match searchAfterThe quoteD ((t.drop m.stop).take 100) with
     | some g => (normalize g, counter)
     | none =>
       match labelSearchDollar (pyStrip (t.take m.start)) with
       | some g =>
         if (List.map pyLower (pyStrip g)) ∈ stopwords then
           (amountBase ++ natDigits (countAmount phKeys + 1), counter)
         else (normalize g, counter)
       | none => (amountBase ++ natDigits (countAmount phKeys + 1), counter))
  | .signature_label =>
    (match m.captured with
     | some g => if g = [] then (normalize ("field".toList), counter)
                 else (normalize g, counter)
     | none => (normalize ("field".toList), counter))
  | _ => (normalize (m.captured.getD []), counter)

/-- One step of process_kept for a single kept match. -/
def processOne (t : List Char) (loc : List Char) (st : DetState)
    (m : RawMatch) : DetState :=
  let kc := deriveKey t m st.counter (st.ph.map Prod.fst)
  { counter := kc.2,
    ph := phAdd st.ph kc.1 m.original,
    cands := st.cands ++
      [{ id := locId loc m.start m.stop, normalized := kc.1,
         original := m.original, kind := m.kind,
         start := m.start, stop := m.stop }] }

def processKept (t : List Char) (loc : List Char) (st : DetState)
    (kept : List RawMatch) : DetState :=
  kept.foldl (processOne t loc) st

/-- One paragraph of `detect_placeholders_with_context`:
collect → arbitrate → process. -/
def detectParagraph (t : List Char) (loc : List Char) (st : DetState) :
    DetState :=
  processKept t loc st (arbitrate (collectCandidates t))

/-- The `(span, normalized key)` pairs detection derives for a single
body paragraph with locator p0 and fresh counters. -/
def detectPairsP0 (t : List Char) : List (Nat × Nat × List Char) :=
  (detectParagraph t ('p' :: natDigits 0) initDetState).cands.map
    (fun c => (c.start, c.stop, c.normalized))

def sigColon : List Char := [':']

def sigLeaders : List Char := [':', ' ', '\t', '.', '-', '—']

/-- Checker for the amended signature-label behaviour: a paragraph that is
exactly the label followed by a colon yields one signature_label candidate
spanning the whole paragraph, keyed by the normalized label. -/
def sigCheck (lab : List Char) : Bool :=
  match (detectParagraph (lab ++ sigColon) ('p' :: natDigits 0)
      initDetState).cands with
  | [c] => decide (c.kind = PatternKind.signature_label) &&
      decide (c.start = 0) && decide (c.stop = lab.length + 1) &&
      decide (c.normalized = normalize lab)
  | _ => false

/-- Same checker with a colon followed by whitespace/punctuation leaders. -/
def sigCheckLead (lab : List Char) : Bool :=
  match (detectParagraph (lab ++ sigLeaders) ('p' :: natDigits 0)
      initDetState).cands with
  | [c] => decide (c.kind = PatternKind.signature_label) &&
      decide (c.start = 0) && decide (c.stop = lab.length + 6) &&
      decide (c.normalized = normalize lab)
  | _ => false

/-- C6 counterexample: the detection signature regex recognizes only
Address, Email, E-mail, Phone, Name and Title; a paragraph whose text is
exactly By followed by a colon produces no candidate at all, so no
signature_label instance with key by exists. -/
theorem sig_by_counterexample :
    collectCandidates ("By:".toList) = [] ∧
    (detectParagraph ("By:".toList) ('p' :: natDigits 0) initDetState).cands
      = [] := by
  exact ⟨by decide, by decide⟩

/-- C6 (amended): the signature_label heuristic recognizes a paragraph
whose entire trimmed text is one of Address, Email, E-mail, Phone, Name,
Title followed by a colon and only whitespace/punctuation leaders,
producing one match of kind signature_label that spans the whole
paragraph, keyed by the normalized label (By is not in the set). -/
theorem sig_labels_amended :
    (sigLabels.all sigCheck && sigLabels.all sigCheckLead) = true := by
  decide

/-! The replacement engine (`lib/document_replacer.py`). -/

/-- One candidate span derived by `_replace_in_paragraph`. -/
structure FillCand where
  kind : PatternKind
  start : Nat
  stop : Nat
  normalized : List Char
deriving DecidableEq, Repr

/-- Adding to the replacer's existing_keys set (insertion-ordered model;
only membership and the amount-key count are ever consumed). -/
def addKey (ks : List (List Char)) (k : List Char) : List (List Char) :=
  if k ∈ ks then ks else ks ++ [k]

def fillAmount (cnt : Nat) (keys : List (List Char)) :
    List Char × Nat × List (List Char) :=
  (amountBase ++ natDigits (countAmount keys + 1), cnt,
   addKey keys (amountBase ++ natDigits (countAmount keys + 1)))

/-- The function _normalize_with_context (plus the existing_keys tracking that
`_replace_in_paragraph` performs for captured patterns).  Returns the
normalized key, the updated underscore counter and updated key set.  The
replacer's after-label regex uses its own quote class, which contains a
space instead of curly quotes. -/
def fillNormalize (t : List Char) (kind : PatternKind)
    (m : Nat × Nat × Option (List Char)) (cnt : Nat)
    (keys : List (List Char)) : List Char × Nat × List (List Char) :=
  match kind with
  | .underscore =>
    (match labelSearchColon (pyStrip (t.take m.1)) with
     | some g => (normalize g, cnt, keys)
     | none => (fieldBase ++ natDigits (cnt + 1), cnt + 1, keys))
  | .dollar_underscore =>
    (match searchAfterThe quoteR ((t.drop m.2.1).take 100) with
     | some g => (normalize g, cnt, keys)
     | none =>
       match labelSearchDollar (pyStrip (t.take m.1)) with
       | some g =>
         if (List.map pyLower (pyStrip g)) ∈ stopwords then fillAmount cnt keys
         else (normalize g, cnt, keys)
       | none => fillAmount cnt keys)
  | _ =>
    (normalize (pyStrip (m.2.2.getD [])), cnt,
     if normalize (pyStrip (m.2.2.getD [])) = [] then keys
     else addKey keys (normalize (pyStrip (m.2.2.getD []))))

/-- The compiled pattern list of `_compile_patterns`, in source order
(double, single, square, underscore, dollar) — which differs from the
detector's order. -/
def fillPatternList :
    List (PatternKind × (List Char → Option (Nat × Option (List Char)))) :=
  [(.double_curly, doubleAt), (.single_curly, singleAt),
   (.square_bracket, squareAt), (.underscore, undAt),
   (.dollar_underscore, dollarAt)]

/-- The match-derivation pass of `_replace_in_paragraph`: every match of
every pattern, in pattern order, with its normalized key; no
arbitration is performed. -/
def fillDerive (t : List Char) (cnt0 : Nat) (keys0 : List (List Char)) :
    List FillCand × Nat × List (List Char) :=
  fillPatternList.foldl
    (fun acc pk =>
      (finditer pk.2 t).foldl
        (fun acc2 m =>
          (acc2.1 ++
             [⟨pk.1, m.1, m.2.1, (fillNormalize t pk.1 m acc2.2.1 acc2.2.2).1⟩],
           (fillNormalize t pk.1 m acc2.2.1 acc2.2.2).2.1,
           (fillNormalize t pk.1 m acc2.2.1 acc2.2.2).2.2))
        acc)
    ([], cnt0, keys0)

def lookupA : List (List Char × List Char) → List Char → Option (List Char)
  | [], _ => none
  | (k1, v) :: r, k => if k1 = k then some v else lookupA r k

/-- Python dict assignment: update in place or append. -/
def setA : List (List Char × List Char) → List Char → List Char →
    List (List Char × List Char)
  | [], k, v => [(k, v)]
  | (k1, v1) :: r, k, v =>
    if k1 = k then (k1, v) :: r else (k1, v1) :: setA r k v

def replC (x y : Char) (l : List Char) : List Char :=
  l.map (fun c => if c = x then y else c)

/-- Python `str.title()` over ASCII letters. -/
def pyTitleGo : Bool → List Char → List Char
  | _, [] => []
  | prev, c :: r =>
    (if isAlphaC c then (if prev then pyLower c else pyUpper c) else c) ::
      pyTitleGo (isAlphaC c) r

def pyTitle (l : List Char) : List Char := pyTitleGo false l

/-- The key variants of `_build_placeholder_lookup` / `_resolve_value`. -/
def variantsOf (k : List Char) : List (List Char) :=
  [List.map pyUpper k, List.map pyLower k, replC ' ' '_' k, replC '_' ' ' k,
   pyTitle k, replC ' ' '_' (List.map pyLower k),
   replC ' ' '_' (List.map pyUpper k)]

def addVariants (lk : List (List Char × List Char)) (k v : List Char) :
    List (List Char × List Char) :=
  (k :: variantsOf k).foldl (fun a kk => setA a kk v) lk

/-- The function _build_placeholder_lookup. -/
def buildLookup (answers : List (List Char × List Char)) :
    List (List Char × List Char) :=
  answers.foldl (fun a kv => addVariants a kv.1 kv.2) []

def firstHit (lk : List (List Char × List Char)) :
    List (List Char) → Option (List Char)
  | [] => none
  | k :: r =>
    (match lookupA lk k with
     | some v => some v
     | none => firstHit lk r)

/-- The function _resolve_value: direct lookup, then the case/space variants. -/
def resolveValue (lk : List (List Char × List Char)) (n : List Char) :
    Option (List Char) :=
  match lookupA lk n with
  | some v => some v
  | none => firstHit lk (variantsOf n)

def dollarSyn : List (List Char) :=
  [("purchase_amount".toList), ("amount".toList), ("price".toList),
   ("amount_1".toList)]

def underscoreSyn : List (List Char) :=
  [("blank_1".toList), ("blank".toList), ("field_1".toList),
   ("signatory_name".toList), ("by".toList), ("name".toList),
   ("title".toList), ("address".toList), ("email".toList),
   ("phone".toList)]

def firstSyn (lk : List (List Char × List Char)) :
    List (List Char) → Option (List Char)
  | [] => none
  | k :: r =>
    (match resolveValue lk k with
     | some v => some v
     | none => firstSyn lk r)

/-- Full value resolution for one span: `_resolve_value`, then the
per-instance override (applied when its answer is truthy), then the
per-kind synonym fallbacks. -/
def resolveFor (lk ov : List (List Char × List Char)) (loc : List Char)
    (c : FillCand) : Option (List Char) :=
  match
    (match lookupA ov (locId loc c.start c.stop) with
     | some a => if a = [] then resolveValue lk c.normalized else some a
     | none => resolveValue lk c.normalized) with
  | some v => some v
  | none =>
    match c.kind with
    | .dollar_underscore => firstSyn lk dollarSyn
    | .underscore => firstSyn lk underscoreSyn
    | _ => none

/-- Stable descending sort by start offset
(`replacements.sort(key=..., reverse=True)`). -/
def insDesc (x : Nat × Nat × List Char) :
    List (Nat × Nat × List Char) → List (Nat × Nat × List Char)
  | [] => [x]
  | y :: ys => if x.1 ≤ y.1 then y :: insDesc x ys else x :: y :: ys

def sortDesc (l : List (Nat × Nat × List Char)) :
    List (Nat × Nat × List Char) :=
  l.foldl (fun a x => insDesc x a) []

/-- Apply the replacements by string slicing, in list order:
`working_text[:start] + value + working_text[end:]`. -/
def applyRepl (t : List Char) (rs : List (Nat × Nat × List Char)) :
    List Char :=
  rs.foldl (fun w r => w.take r.1 ++ r.2.2 ++ w.drop r.2.1) t

/-- The resolved replacement list of `_replace_in_paragraph`: spans whose
resolution produced a value, with that value. -/
def fillResolved (t : List Char) (lk ov : List (List Char × List Char))
    (loc : List Char) (cnt : Nat) (keys : List (List Char)) :
    List (Nat × Nat × List Char) :=
  (fillDerive t cnt keys).1.filterMap
    (fun c => (resolveFor lk ov loc c).map (fun v => (c.start, c.stop, v)))

/-- The `has_placeholders` early-out check: no pattern matches at all. -/
def noPatternMatch (t : List Char) : Bool :=
  decide (finditer doubleAt t = []) && decide (finditer singleAt t = []) &&
  decide (finditer squareAt t = []) && decide (finditer undAt t = []) &&
  decide (finditer dollarAt t = [])

/-- The text-level effect of `_replace_in_paragraph` on one paragraph. -/
def fillParaText (t : List Char) (lk ov : List (List Char × List Char))
    (loc : List Char) (cnt : Nat) (keys : List (List Char)) :
    List Char × Nat × List (List Char) :=
  if t = [] then (t, cnt, keys)
  else if noPatternMatch t then (t, cnt, keys)
  else
    (applyRepl t (sortDesc (fillResolved t lk ov loc cnt keys)),
     (fillDerive t cnt keys).2.1, (fillDerive t cnt keys).2.2)

/-- A formatted run: text plus the python-docx formatting profile read and
written by `_update_paragraph_text`. -/
structure RunF where
  text : List Char
  bold : Option Bool
  italic : Option Bool
  underline : Option Bool
  fontName : Option (List Char)
  fontSize : Option Nat
deriving DecidableEq, Repr

/-- A paragraph as the replacer sees it: its list of runs. -/
structure Para where
  runs : List RunF
deriving DecidableEq, Repr

/-- Python-docx paragraph.text: concatenation of the run texts. -/
def paraText (p : Para) : List Char := (p.runs.map RunF.text).flatten

/-- The function _update_paragraph_text: clear the runs and emit a single run holding
the new text with the first run's formatting profile (bold, italic and
underline copied when not None; font name and size copied when truthy). -/
def updateParagraphText (p : Para) (newText : List Char) : Para :=
  match p.runs with
  | [] => { runs := [⟨newText, none, none, none, none, none⟩] }
  | r0 :: _ =>
    { runs := [⟨newText, r0.bold, r0.italic, r0.underline,
       (match r0.fontName with
        | some n => if n = [] then none else some n
        | none => none),
       (match r0.fontSize with
        | some s => if s = 0 then none else some s
        | none => none)⟩] }

/-- The function _replace_in_paragraph on one paragraph: early outs for empty text,
no pattern match, and no runs; otherwise derive matches, resolve values,
and rewrite the paragraph only when at least one replacement resolved. -/
def fillParagraph (p : Para) (lk ov : List (List Char × List Char))
    (loc : List Char) (cnt : Nat) (keys : List (List Char)) :
    Para × Nat × List (List Char) :=
  if paraText p = [] then (p, cnt, keys)
  else if noPatternMatch (paraText p) then (p, cnt, keys)
  else
    match p.runs with
    | [] => (p, cnt, keys)
    | _ :: _ =>
      if fillResolved (paraText p) lk ov loc cnt keys = [] then
        (p, (fillDerive (paraText p) cnt keys).2.1,
         (fillDerive (paraText p) cnt keys).2.2)
      else
        (updateParagraphText p
          (applyRepl (paraText p)
            (sortDesc (fillResolved (paraText p) lk ov loc cnt keys))),
         (fillDerive (paraText p) cnt keys).2.1,
         (fillDerive (paraText p) cnt keys).2.2)

/-- The `(span, normalized key)` pairs the replacement engine derives for
one paragraph with fresh counters. -/
def fillDerivePairs (t : List Char) : List (Nat × Nat × List Char) :=
  (fillDerive t 0 []).1.map (fun c => (c.start, c.stop, c.normalized))

def ansX : List (List Char × List Char) := [(['x'], ("Acme".toList))]

/-- C1: evaluation at the failing input.  On the paragraph consisting of a
double-curly token around X, detection (collect, arbitrate, normalize)
derives exactly one pair — span (0,5) with key x — while the replacement
engine, which never arbitrates, derives both the double-curly span (0,5)
and the overlapping inner single-curly span (1,4); filling with x bound to
Acme substitutes both overlapping spans and corrupts the paragraph to the
five characters Acme-followed-by-a-closing-brace instead of Acme. -/
theorem fill_vs_detect_overlap_eval :
    detectPairsP0 exDblText = [(0, 5, ['x'])] ∧
    fillDerivePairs exDblText = [(0, 5, ['x']), (1, 4, ['x'])] ∧
    (fillParaText exDblText (buildLookup ansX) [] ('p' :: natDigits 0)
        0 []).1 = ['A', 'c', 'm', 'e', '}'] := by
  exact ⟨by decide, by decide, by decide⟩

/-- Supporting lemma for the all-spans-unresolved paragraph case: if
neither the answers lookup (directly or via case/space variants), nor an
instance override, nor the synonym fallbacks resolve a value for any span
the engine derives in a paragraph, the paragraph text is returned
unchanged. -/
theorem fill_unresolved_leaves_text (t : List Char)
    (lk ov : List (List Char × List Char)) (loc : List Char)
    (cnt : Nat) (keys : List (List Char))
    (h : ∀ c ∈ (fillDerive t cnt keys).1, resolveFor lk ov loc c = none) :
    (fillParaText t lk ov loc cnt keys).1 = t := by
  unfold fillParaText
  by_cases h0 : t = []
  · rw [if_pos h0]
  · rw [if_neg h0]
    by_cases h1 : noPatternMatch t = true
    · rw [if_pos h1]
    · rw [if_neg h1]
      have hres : fillResolved t lk ov loc cnt keys = [] := by
        unfold fillResolved
        rw [List.filterMap_eq_nil_iff]
        intro c hc
        rw [h c hc]
        rfl
      rw [hres]
      rfl

/-- Concrete instance of the preceding lemma: a paragraph containing a
placeholder, an empty answers map and no overrides. -/
theorem fill_unresolved_leaves_text_witness :
    (fillParaText exDblText [] [] ('p' :: natDigits 0) 0 []).1 = exDblText :=
  fill_unresolved_leaves_text exDblText [] [] ('p' :: natDigits 0) 0 []
    (by decide)

/-- C10: a paragraph for which no replacement value resolves for any
derived span (in particular one with no pattern match at all) is returned
entirely untouched, run structure and per-run formatting included; the
collapse to a single run with the first run's profile happens only when at
least one substitution was applied. -/
theorem fill_unresolved_leaves_paragraph (p : Para)
    (lk ov : List (List Char × List Char)) (loc : List Char)
    (cnt : Nat) (keys : List (List Char))
    (h : ∀ c ∈ (fillDerive (paraText p) cnt keys).1,
      resolveFor lk ov loc c = none) :
    (fillParagraph p lk ov loc cnt keys).1 = p := by
  unfold fillParagraph
  by_cases h0 : paraText p = []
  · rw [if_pos h0]
  · rw [if_neg h0]
    by_cases h1 : noPatternMatch (paraText p) = true
    · rw [if_pos h1]
    · rw [if_neg h1]
      have hres : fillResolved (paraText p) lk ov loc cnt keys = [] := by
        unfold fillResolved
        rw [List.filterMap_eq_nil_iff]
        intro c hc
        rw [h c hc]
        rfl
      cases hr : p.runs with
      | nil => rfl
      | cons r0 rr =>
        rw [if_pos hres]

def exPara : Para :=
  { runs := [⟨exDblText, some true, none, none, some ("Arial".toList),
     some 11⟩] }

/-- Witness for C10: a one-run formatted paragraph containing a
placeholder, with an empty answers map. -/
theorem fill_unresolved_leaves_paragraph_witness :
    (fillParagraph exPara [] [] ('p' :: natDigits 0) 0 []).1 = exPara :=
  fill_unresolved_leaves_paragraph exPara [] [] ('p' :: natDigits 0) 0 []
    (by decide)

/-! The false-positive filter (`reduce_false_positives`). -/

def spanDigits : List Char → Nat × List Char
  | [] => (0, [])
  | c :: r =>
    if isDigitC c then
      let p := spanDigits r
      (p.1 + 1, p.2)
    else (0, c :: r)

def spanAlnum : List Char → Nat × List Char
  | [] => (0, [])
  | c :: r =>
    if isAlnumC c then
      let p := spanAlnum r
      (p.1 + 1, p.2)
    else (0, c :: r)

/-- Python `str.isdigit()` (ASCII digits; false on the empty string). -/
def isDigitsL (l : List Char) : Bool := !(l = []) && l.all isDigitC

/-- Substring containment (`sub in s`). -/
def containsSeq (sub : List Char) : List Char → Bool
  | [] => decide (sub = [])
  | c :: r => leadsWith (c :: r) sub || containsSeq sub r

/-- Regex `^\d+\([a-z]\)$` (case-insensitive). -/
def secParen (l : List Char) : Bool :=
  let p := spanDigits l
  1 ≤ p.1 &&
    (match p.2 with
     | '(' :: c :: ')' :: rest => isAlphaC c && tailDollar rest
     | _ => false)

/-- Regex `^Section\s+\d+` (case-insensitive, not end-anchored). -/
def secRef (l : List Char) : Bool :=
  match matchCI ("Section".toList) l with
  | some (_, r) =>
    let pw := spanWs r
    1 ≤ pw.1 &&
      (match pw.2 with
       | c :: _ => isDigitC c
       | [] => false)
  | none => false

/-- Regex `^(Exhibit|Schedule|Annex)\s+[A-Za-z0-9]+$` (case-insensitive). -/
def exhibitRef (l : List Char) : Bool :=
  [("Exhibit".toList), ("Schedule".toList), ("Annex".toList)].any
    (fun w =>
      match matchCI w l with
      | some (_, r) =>
        let pw := spanWs r
        let pa := spanAlnum pw.2
        1 ≤ pw.1 && 1 ≤ pa.1 && tailDollar pa.2
      | none => false)

def acronyms : List (List Char) :=
  [("llc".toList), ("usa".toList), ("inc".toList), ("ltd".toList),
   ("co".toList), ("corp".toList), ("aka".toList), ("dba".toList),
   ("llp".toList), ("pllc".toList)]

/-- One alternative of the boilerplate regex
`unsubscribe|manage\s+preferences|view\s+in\s+browser` at the head. -/
def boilerAt (l : List Char) : Bool :=
  (matchCI ("unsubscribe".toList) l).isSome ||
  (match matchCI ("manage".toList) l with
   | some (_, r) =>
     let pw := spanWs r
     1 ≤ pw.1 && (matchCI ("preferences".toList) pw.2).isSome
   | none => false) ||
  (match matchCI ("view".toList) l with
   | some (_, r) =>
     let p1 := spanWs r
     1 ≤ p1.1 &&
       (match matchCI ("in".toList) p1.2 with
        | some (_, r2) =>
          let p2 := spanWs r2
          1 ≤ p2.1 && (matchCI ("browser".toList) p2.2).isSome
        | none => false)
   | none => false)

def searchBoiler : List Char → Bool
  | [] => false
  | c :: r => boilerAt (c :: r) || searchBoiler r

/-- The per-original bracket-content exclusions of
`reduce_false_positives`. -/
def bracketBad (orig : List Char) : Bool :=
  if orig.head? = some '[' && orig.getLast? = some ']' then
    (let content := pyStrip ((orig.drop 1).dropLast)
     isDigitsL content || secParen content || secRef content ||
     exhibitRef content ||
     decide ((List.map pyLower (pyStrip content)) ∈ acronyms) ||
     searchBoiler content || decide (content.length = 1))
  else false

def allowShort : List (List Char) :=
  [("by".toList), ("name".toList), ("title".toList), ("email".toList),
   ("address".toList), ("phone".toList)]

/-- The keep/drop decision of `reduce_false_positives` for one field. -/
def rfpEntry (normalized : List Char) (originals : List (List Char)) :
    Bool :=
  if isDigitsL normalized then false
  else if containsSeq ("section".toList) (List.map pyLower normalized) then
    false
  else if normalized.length = 1 then false
  else if originals.any bracketBad then false
  else if originals.length = 1 && !(decide ('_' ∈ normalized)) &&
      normalized.length ≤ 3 && !(decide (normalized ∈ allowShort)) then false
  else
    decide (2 ≤ originals.length) || decide ('_' ∈ normalized) ||
      decide (3 < normalized.length)

/-- The function reduce_false_positives: each field is kept only when `rfpEntry`
accepts it; insertion order is preserved. -/
def reduceFalsePositives (ph : List (List Char × List (List Char))) :
    List (List Char × List (List Char)) :=
  ph.filter (fun kv => rfpEntry kv.1 kv.2)

/-- C7: evaluation at the failing input.  The field map containing only
the key by with the single original by-colon is emptied by the filter —
the allow-list exemption lets the entry past the short-singleton
exclusion, but the final keep condition (two or more occurrences, or an
underscore, or length over three) still rejects it, so the allow-list
member by is dropped. -/
theorem rfp_by_dropped :
    reduceFalsePositives [(("by".toList), [("by:".toList)])] = [] ∧
    ("by".toList) ∈ allowShort := by
  exact ⟨by decide, by decide⟩

/-! Field grouping (`groups.setdefault(normalized, []).append(id)` in
`detect_placeholders_with_context`). -/

def addGroup : List (List Char × List (List Char)) → List Char → List Char →
    List (List Char × List (List Char))
  | [], k, i => [(k, [i])]
  | (k1, l) :: r, k, i =>
    if k1 = k then (k1, l ++ [i]) :: r else (k1, l) :: addGroup r k i

/-- The field map `groups` built from the candidate list. -/
def buildGroups (cs : List Candidate) :
    List (List Char × List (List Char)) :=
  cs.foldl (fun gs c => addGroup gs c.normalized c.id) []

/-- All instance ids stored in a group map, in order. -/
def flatIds (gs : List (List Char × List (List Char))) : List (List Char) :=
  (gs.map Prod.snd).flatten

theorem flatIds_addGroup : (gs : List (List Char × List (List Char))) →
    (k i : List Char) →
    List.Perm (flatIds (addGroup gs k i)) (flatIds gs ++ [i])
  | [], _, _ => by
    simp [flatIds, addGroup]
  | (k1, l) :: r, k, i => by
    by_cases hk : k1 = k
    · show List.Perm (flatIds (if k1 = k then (k1, l ++ [i]) :: r
        else (k1, l) :: addGroup r k i)) _
      rw [if_pos hk]
      show List.Perm ((l ++ [i]) ++ flatIds r) ((l ++ flatIds r) ++ [i])
      rw [List.append_assoc, List.append_assoc]
      exact List.Perm.append_left l (List.perm_append_comm)
    · show List.Perm (flatIds (if k1 = k then (k1, l ++ [i]) :: r
        else (k1, l) :: addGroup r k i)) _
      rw [if_neg hk]
      show List.Perm (l ++ flatIds (addGroup r k i)) ((l ++ flatIds r) ++ [i])
      rw [List.append_assoc]
      exact List.Perm.append_left l (flatIds_addGroup r k i)

theorem flatIds_foldl : (cs : List Candidate) →
    (gs : List (List Char × List (List Char))) →
    List.Perm
      (flatIds (cs.foldl (fun a c => addGroup a c.normalized c.id) gs))
      (flatIds gs ++ cs.map Candidate.id)
  | [], gs => by
    simp
  | c :: cs', gs => by
    rw [List.foldl_cons]
    have h1 := flatIds_foldl cs' (addGroup gs c.normalized c.id)
    have h2 := flatIds_addGroup gs c.normalized c.id
    refine h1.trans ?_
    have h3 := List.Perm.append_right (cs'.map Candidate.id) h2
    refine h3.trans ?_
    rw [List.map_cons, List.append_assoc]
    exact List.Perm.refl _

theorem flatIds_buildGroups (cs : List Candidate) :
    List.Perm (flatIds (buildGroups cs)) (cs.map Candidate.id) :=
  flatIds_foldl cs []

theorem sum_lengths_flatIds :
    (gs : List (List Char × List (List Char))) →
    (gs.map (fun g => g.2.length)).sum = (flatIds gs).length
  | [] => rfl
  | (k, l) :: r => by
    show l.length + ((r.map (fun g => g.2.length)).sum) =
      (l ++ flatIds r).length
    rw [List.length_append, sum_lengths_flatIds r]

theorem mem_addGroup_self : (gs : List (List Char × List (List Char))) →
    (k i : List Char) → ∃ g ∈ addGroup gs k i, g.1 = k ∧ i ∈ g.2
  | [], k, i => ⟨(k, [i]), List.mem_singleton_self _, rfl,
      List.mem_singleton_self i⟩
  | (k1, l) :: r, k, i => by
    by_cases hk : k1 = k
    · refine ⟨(k1, l ++ [i]), ?_, hk, ?_⟩
      · show (k1, l ++ [i]) ∈ (if k1 = k then (k1, l ++ [i]) :: r
          else (k1, l) :: addGroup r k i)
        rw [if_pos hk]
        exact List.mem_cons_self _ _
      · exact List.mem_append_right l (List.mem_singleton_self i)
    · rcases mem_addGroup_self r k i with ⟨g, hg, hgk, hgi⟩
      refine ⟨g, ?_, hgk, hgi⟩
      show g ∈ (if k1 = k then (k1, l ++ [i]) :: r
        else (k1, l) :: addGroup r k i)
      rw [if_neg hk]
      exact List.mem_cons_of_mem _ hg

theorem mem_addGroup_mono : (gs : List (List Char × List (List Char))) →
    (k2 i2 : List Char) → {k i : List Char} →
    (∃ g ∈ gs, g.1 = k ∧ i ∈ g.2) →
    ∃ g ∈ addGroup gs k2 i2, g.1 = k ∧ i ∈ g.2
  | [], _, _, _, _, h => by
    rcases h with ⟨g, hg, _⟩
    exact absurd hg (List.not_mem_nil g)
  | (k1, l) :: r, k2, i2, k, i, h => by
    rcases h with ⟨g, hg, hgk, hgi⟩
    by_cases hk : k1 = k2
    · rcases List.mem_cons.mp hg with h1 | h2
      · refine ⟨(k1, l ++ [i2]), ?_, ?_, ?_⟩
        · show (k1, l ++ [i2]) ∈ (if k1 = k2 then (k1, l ++ [i2]) :: r
            else (k1, l) :: addGroup r k2 i2)
          rw [if_pos hk]
          exact List.mem_cons_self _ _
        · rw [← hgk, h1]
        · exact List.mem_append_left [i2] (by
            have : g.2 = l := by rw [h1]
            rw [← this]
            exact hgi)
      · refine ⟨g, ?_, hgk, hgi⟩
        show g ∈ (if k1 = k2 then (k1, l ++ [i2]) :: r
          else (k1, l) :: addGroup r k2 i2)
        rw [if_pos hk]
        exact List.mem_cons_of_mem _ h2
    · rcases List.mem_cons.mp hg with h1 | h2
      · refine ⟨(k1, l), ?_, ?_, ?_⟩
        · show (k1, l) ∈ (if k1 = k2 then (k1, l ++ [i2]) :: r
            else (k1, l) :: addGroup r k2 i2)
          rw [if_neg hk]
          exact List.mem_cons_self _ _
        · rw [← hgk, h1]
        · have : g.2 = l := by rw [h1]
          rw [← this]
          exact hgi
      · rcases mem_addGroup_mono r k2 i2 ⟨g, h2, hgk, hgi⟩ with
          ⟨g1, hg1, hg1k, hg1i⟩
        refine ⟨g1, ?_, hg1k, hg1i⟩
        show g1 ∈ (if k1 = k2 then (k1, l ++ [i2]) :: r
          else (k1, l) :: addGroup r k2 i2)
        rw [if_neg hk]
        exact List.mem_cons_of_mem _ hg1

theorem foldl_groups_mono : (cs : List Candidate) →
    (gs : List (List Char × List (List Char))) → {k i : List Char} →
    (∃ g ∈ gs, g.1 = k ∧ i ∈ g.2) →
    ∃ g ∈ cs.foldl (fun a c => addGroup a c.normalized c.id) gs,
      g.1 = k ∧ i ∈ g.2
  | [], _, _, _, h => h
  | c :: cs', gs, k, i, h => by
    rw [List.foldl_cons]
    exact foldl_groups_mono cs' (addGroup gs c.normalized c.id)
      (mem_addGroup_mono gs c.normalized c.id h)

theorem mem_buildGroups_aux : (cs : List Candidate) →
    (gs : List (List Char × List (List Char))) → (c : Candidate) →
    c ∈ cs →
    ∃ g ∈ cs.foldl (fun a x => addGroup a x.normalized x.id) gs,
      g.1 = c.normalized ∧ c.id ∈ g.2
  | [], _, c, hc => absurd hc (List.not_mem_nil c)
  | c' :: cs', gs, c, hc => by
    rw [List.foldl_cons]
    rcases List.mem_cons.mp hc with h1 | h2
    · subst h1
      exact foldl_groups_mono cs' (addGroup gs c.normalized c.id)
        (mem_addGroup_self gs c.normalized c.id)
    · exact mem_buildGroups_aux cs' (addGroup gs c'.normalized c'.id) c h2

/-- Number of occurrences of an id in an id list. -/
def countOcc (i : List Char) (l : List (List Char)) : Nat :=
  (l.filter (fun x => x = i)).length

theorem countOcc_perm {l1 l2 : List (List Char)} (i : List Char)
    (h : List.Perm l1 l2) : countOcc i l1 = countOcc i l2 :=
  (h.filter (fun x => x = i)).length_eq

theorem countOcc_eq_one : (l : List (List Char)) → (i : List Char) →
    l.Nodup → i ∈ l → countOcc i l = 1
  | [], i, _, h => absurd h (List.not_mem_nil i)
  | x :: r, i, hd, h => by
    rcases List.mem_cons.mp h with h1 | h2
    · have hx : x ∉ r := (List.nodup_cons.mp hd).1
      unfold countOcc
      rw [List.filter_cons]
      rw [if_pos (decide_eq_true h1.symm)]
      have hfil : r.filter (fun y => y = i) = [] :=
        List.filter_eq_nil_iff.mpr (fun a ha hax =>
          hx (h1 ▸ of_decide_eq_true hax ▸ ha))
      rw [hfil]
      rfl
    · have hx : x ∉ r := (List.nodup_cons.mp hd).1
      have hne : ¬ (x = i) := fun hxi => hx (hxi ▸ h2)
      unfold countOcc
      rw [List.filter_cons, if_neg (neT (decide_eq_false hne))]
      exact countOcc_eq_one r i (List.nodup_cons.mp hd).2 h2

/-- C8: for any candidate list with distinct instance ids, the field map
built from it is a partition of the candidates: the per-field instance
counts sum to the total candidate count, every candidate's id is stored
under its own normalized key, and every candidate's id occurs exactly once
in the whole map. -/
theorem buildGroups_partition (cs : List Candidate)
    (hids : (cs.map Candidate.id).Nodup) :
    ((buildGroups cs).map (fun g => g.2.length)).sum = cs.length ∧
    (∀ c ∈ cs, ∃ g ∈ buildGroups cs, g.1 = c.normalized ∧ c.id ∈ g.2) ∧
    (∀ c ∈ cs, countOcc c.id (flatIds (buildGroups cs)) = 1) := by
  have hperm := flatIds_buildGroups cs
  refine ⟨?_, ?_, ?_⟩
  · rw [sum_lengths_flatIds, hperm.length_eq, List.length_map]
  · intro c hc
    exact mem_buildGroups_aux cs [] c hc
  · intro c hc
    exact Eq.trans (countOcc_perm c.id hperm)
      (countOcc_eq_one _ _ hids (List.mem_map_of_mem Candidate.id hc))

def csEx : List Candidate :=
  [⟨("p0-s0-e5".toList), ("x".toList), exDblText, .double_curly, 0, 5⟩,
   ⟨("p1-s2-e7".toList), ("x".toList), exDblText, .double_curly, 2, 7⟩,
   ⟨("p2-s0-e3".toList), ("y".toList), ("___".toList), .underscore, 0, 3⟩]

/-- Witness for C8: three concrete candidates, two sharing a key. -/
theorem buildGroups_partition_witness :
    ((buildGroups csEx).map (fun g => g.2.length)).sum = csEx.length ∧
    (∀ c ∈ csEx, ∃ g ∈ buildGroups csEx, g.1 = c.normalized ∧ c.id ∈ g.2) ∧
    (∀ c ∈ csEx, countOcc c.id (flatIds (buildGroups csEx)) = 1) :=
  buildGroups_partition csEx (by decide)

def exMixText : List Char := ("[abc ___ def]".toList)

def ansMix : List (List Char × List Char) := [(("abc_def".toList), ['V'])]

/-- C9: evaluation at the failing input.  In the paragraph whose text is
a square-bracket token containing an underscore run (text
left-bracket abc space three-underscores space def right-bracket), with
answers binding abc_def to V, the engine derives both the resolvable
square-bracket span (0,13) (key abc_def) and the underscore span (5,8)
(key field_1) for which no value resolves — not directly, not via key
variants, not via the synonym fallbacks.  Because the engine never
arbitrates overlaps, the resolved bracket substitution rewrites the whole
paragraph to the single character V, destroying the unresolved span's
text instead of leaving it unchanged as the claim states. -/
theorem fill_unresolved_span_wiped :
    (fillDerive exMixText 0 []).1 =
      [⟨.square_bracket, 0, 13, ("abc_def".toList)⟩,
       ⟨.underscore, 5, 8, ("field_1".toList)⟩] ∧
    resolveFor (buildLookup ansMix) [] ('p' :: natDigits 0)
      ⟨.underscore, 5, 8, ("field_1".toList)⟩ = none ∧
    (fillParaText exMixText (buildLookup ansMix) [] ('p' :: natDigits 0)
        0 []).1 = ['V'] := by
  exact ⟨by decide, by decide, by decide⟩
